import Mathlib

/-!
Verification of the staged progress engine, the synchronized dual-view
playback controller, and the download naming rule of the 2dto3dvr180
application (src/src/App.tsx), via a shallow embedding.

The embedding models the single-threaded timer-driven runtime: the
application state carries the list of pending scheduled callbacks
(setInterval ticks and setTimeout pauses), and an explicit event loop
fires them one at a time, recording the externally observable emissions
(progress snapshots, inter-stage pauses, the completion signal).
-/

namespace VR180

/-- ProcessingStep mirrors the interface of App.tsx lines 4-9:
name, description, progress percentage and a completed flag. -/
structure ProcessingStep where
  name : String
  description : String
  progress : ℚ
  completed : Bool
deriving DecidableEq, Repr

/-- The four default pipeline steps of App.tsx lines 24-29. -/
def defaultSteps : List ProcessingStep :=
  [ { name := "3D Depth Mapping",
      description := "Creating detailed depth maps from 2D footage using AI",
      progress := 0, completed := false },
    { name := "Stereoscopic Rendering",
      description := "Generating left and right eye views for 3D effect",
      progress := 0, completed := false },
    { name := "VR 180 Conversion",
      description := "Converting to immersive 3D VR 180 format",
      progress := 0, completed := false },
    { name := "3D Quality Enhancement",
      description := "Optimizing 3D depth and VR viewing experience",
      progress := 0, completed := false } ]

/-- The four wizard view states of App.tsx line 20. -/
inductive Route where
  | upload
  | processing
  | preview
  | download
deriving DecidableEq, Repr

/-- In-place mutation of the array element at index i
(App.tsx lines 130-131 and 140: step.progress = ..; step.completed = ..),
expressed functionally: overwrite the progress and completed fields of
the element at index i, leaving everything else unchanged. -/
def updateStep : List ProcessingStep → ℕ → ℚ → Bool → List ProcessingStep
  | [], _, _, _ => []
  | st :: rest, 0, p, c => { st with progress := p, completed := c } :: rest
  | st :: rest, i + 1, p, c => st :: updateStep rest i p c

/-- A pending scheduled callback of the engine: either the setInterval
tick of stage i (App.tsx line 125, closure state: the shared steps array
and the local stepProgress), or the 500ms setTimeout that re-enters
processStep at index i (App.tsx line 138). -/
inductive Task where
  | interval (steps : List ProcessingStep) (i : ℕ) (stepProgress : ℚ)
  | timeout (steps : List ProcessingStep) (i : ℕ)
deriving DecidableEq, Repr

/-- The application state relevant to the progress engine:
the wizard route, the React state of the steps, the overall progress,
the isProcessing flag, and the queue of pending timers. -/
structure AppState where
  currentStep : Route
  processingSteps : List ProcessingStep
  overallProgress : ℚ
  isProcessing : Bool
  timers : List Task
deriving DecidableEq, Repr

/-- Externally observable emissions of the engine: a mid-stage progress
snapshot (one 80ms tick), the snapshot of a stage reaching 100%, the
elapsing of a 500ms setTimeout, and the completion signal (overall
progress 100, isProcessing false, transition to the preview route). -/
inductive Ev where
  | snap (i : ℕ) (steps : List ProcessingStep) (overall : ℚ)
  | snapComplete (i : ℕ) (steps : List ProcessingStep) (overall : ℚ)
  | pause
  | complete
deriving DecidableEq, Repr

/-- App.tsx line 122: const progressIncrement = 100 / 50. -/
def progressIncrement : ℚ := 100 / 50

/-- The initial React state (App.tsx lines 20-31) with a given step list:
route upload, overall progress 0, not processing, no pending timers. -/
def initState (steps0 : List ProcessingStep) : AppState :=
  ⟨Route.upload, steps0, 0, false, []⟩

/-- startProcessing (App.tsx lines 105-148).  It unconditionally sets the
route to processing and isProcessing to true, then synchronously calls
processStep with currentStepIndex = 0: if the step list is empty that
call immediately sets overallProgress to 100, isProcessing to false and
the route to preview; otherwise it registers the stage-0 interval with
local stepProgress 0.  There is no guard against an empty list or an
already-running interval. -/
def startProcessing (s : AppState) : AppState :=
  if s.processingSteps.length = 0 then
    { s with overallProgress := 100, isProcessing := false,
             currentStep := Route.preview }
  else
    { s with currentStep := Route.processing, isProcessing := true,
             timers := s.timers ++ [Task.interval s.processingSteps 0 0] }

/-- resetProcess (App.tsx lines 150-163): route back to upload,
isProcessing false, overallProgress 0, every step mapped back to
progress 0 and completed false.  The function never calls clearInterval
or clearTimeout (the interval handle is local to processStep), so the
pending timer queue is left untouched. -/
def resetProcess (s : AppState) : AppState :=
  { s with currentStep := Route.upload, isProcessing := false,
           overallProgress := 0,
           processingSteps := s.processingSteps.map fun st =>
             { st with progress := 0, completed := false } }

/-- Fire the oldest pending timer, returning the new state and the
events it emits.  Interval tick (App.tsx lines 125-144): add the
increment to stepProgress; at or above 100 mark the step completed,
publish the stage boundary overall progress ((i+1)/N)*100, clear the
interval and schedule the 500ms timeout for index i+1; otherwise store
and publish the mid-stage values.  Timeout (processStep, lines 113-119):
past the last index it publishes completion, else it starts the next
stage interval with stepProgress 0. -/
def fireHead (s : AppState) : AppState × List Ev :=
  match s.timers with
  | [] => (s, [])
  | Task.interval steps i p :: rest =>
    if (100 : ℚ) ≤ p + progressIncrement then
      ({ s with processingSteps := updateStep steps i 100 true,
                overallProgress := (((i : ℚ) + 1) / (steps.length : ℚ)) * 100,
                timers := rest ++ [Task.timeout (updateStep steps i 100 true) (i + 1)] },
       [Ev.snapComplete i (updateStep steps i 100 true)
          ((((i : ℚ) + 1) / (steps.length : ℚ)) * 100)])
    else
      ({ s with processingSteps := updateStep steps i (p + progressIncrement) false,
                overallProgress :=
                  ((i : ℚ) / (steps.length : ℚ)) * 100 + (p + progressIncrement) / (steps.length : ℚ),
                timers := rest ++ [Task.interval (updateStep steps i (p + progressIncrement) false) i
                  (p + progressIncrement)] },
       [Ev.snap i (updateStep steps i (p + progressIncrement) false)
          (((i : ℚ) / (steps.length : ℚ)) * 100 + (p + progressIncrement) / (steps.length : ℚ))])
  | Task.timeout steps i :: rest =>
    if steps.length ≤ i then
      ({ s with overallProgress := 100, isProcessing := false,
                currentStep := Route.preview, timers := rest },
       [Ev.pause, Ev.complete])
    else
      ({ s with timers := rest ++ [Task.interval steps i 0] }, [Ev.pause])

/-- Run the event loop for n timer firings, collecting all emissions. -/
def fireN : ℕ → AppState → AppState × List Ev
  | 0, s => (s, [])
  | n + 1, s => ((fireN n (fireHead s).1).1, (fireHead s).2 ++ (fireN n (fireHead s).1).2)

/-- The state after one full run: start on steps0 and fire the event
loop to quiescence (51 firings per stage: 50 ticks plus one timeout). -/
def runFinal (steps0 : List ProcessingStep) : AppState :=
  (fireN (51 * steps0.length) (startProcessing (initState steps0))).1

/-- The full emission trace of one run of the engine on steps0. -/
def runTrace (steps0 : List ProcessingStep) : List Ev :=
  (fireN (51 * steps0.length) (startProcessing (initState steps0))).2

/-- A valid stage sequence as required by the contract: every stage at
progress 0 and not completed. -/
def ValidSteps (steps0 : List ProcessingStep) : Prop :=
  ∀ st ∈ steps0, st.progress = 0 ∧ st.completed = false

/-- The step list with the first i entries marked progress 100 and
completed: the state of the shared steps array at entry of stage i. -/
def completeUpTo : List ProcessingStep → ℕ → List ProcessingStep
  | [], _ => []
  | st :: rest, 0 => st :: rest
  | st :: rest, i + 1 =>
      { st with progress := 100, completed := true } :: completeUpTo rest i

/-- Closed form of the emissions of the last m+1 interval ticks of stage
j, entered with local stepProgress 98 - 2m and shared array steps:
m mid-stage snapshots followed by the stage-boundary snapshot. -/
def tickEvsFrom (steps : List ProcessingStep) (j : ℕ) : ℕ → List Ev
  | 0 => [Ev.snapComplete j (updateStep steps j 100 true)
            ((((j : ℚ) + 1) / (steps.length : ℚ)) * 100)]
  | m + 1 =>
      Ev.snap j (updateStep steps j ((98 : ℚ) - 2 * (m : ℚ)) false)
        (((j : ℚ) / (steps.length : ℚ)) * 100 + ((98 : ℚ) - 2 * (m : ℚ)) / (steps.length : ℚ))
      :: tickEvsFrom steps j m

/-- Closed form of the whole emission trace with q stages left to run,
the next being stage j: each remaining stage contributes its 50 tick
snapshots and the elapsing of its trailing 500ms timeout, and the final
timeout emission carries the completion signal. -/
def stagesTrace (steps0 : List ProcessingStep) : ℕ → ℕ → List Ev
  | _, 0 => [Ev.complete]
  | j, q + 1 =>
      tickEvsFrom (completeUpTo steps0 j) j 49 ++
        Ev.pause :: stagesTrace steps0 (j + 1) q

/-- Recognizer for mid-stage tick snapshots. -/
def isSnap : Ev → Bool
  | Ev.snap _ _ _ => true
  | _ => false

/-- Recognizer for stage-boundary snapshots. -/
def isSnapComplete : Ev → Bool
  | Ev.snapComplete _ _ _ => true
  | _ => false

/-- Recognizer for interval ticks of either kind (one 80ms cadence slot). -/
def isTickEv (e : Ev) : Bool := isSnap e || isSnapComplete e

/-- Recognizer for a 500ms setTimeout elapsing. -/
def isPause : Ev → Bool
  | Ev.pause => true
  | _ => false

/-- Recognizer for the completion signal. -/
def isCompleteEv : Ev → Bool
  | Ev.complete => true
  | _ => false

/-- Overall-progress value published by a snapshot event, if any. -/
def ovOf : Ev → Option ℚ
  | Ev.snap _ _ o => some o
  | Ev.snapComplete _ _ o => some o
  | _ => none

/-- Step-list published by a snapshot event, if any. -/
def stateOf : Ev → Option (List ProcessingStep)
  | Ev.snap _ s _ => some s
  | Ev.snapComplete _ s _ => some s
  | _ => none

/-- The sequence of overallProgress values of the snapshots of a trace. -/
def snapOveralls (tr : List Ev) : List ℚ := tr.filterMap ovOf

/-- The sequence of published step lists of the snapshots of a trace. -/
def snapStates (tr : List Ev) : List (List ProcessingStep) := tr.filterMap stateOf

/-- Whether the step at index idx of a published step list is completed. -/
def completedAt (s : List ProcessingStep) (idx : ℕ) : Bool :=
  match s.get? idx with
  | some st => st.completed
  | none => false

/-- Wall-clock milliseconds attributed to an event: a tick is one 80ms
cadence slot (App.tsx line 144), a pause is the 500ms setTimeout
(App.tsx line 138), and the completion callback itself takes no time. -/
def eventMs : Ev → ℕ
  | Ev.snap _ _ _ => 80
  | Ev.snapComplete _ _ _ => 80
  | Ev.pause => 500
  | Ev.complete => 0

/-- Total wall-clock duration of a trace. -/
def elapsedMs (tr : List Ev) : ℕ := (tr.map eventMs).sum

/-! Basic lemmas about the list helpers. -/

theorem length_updateStep (xs : List ProcessingStep) (i : ℕ) (p : ℚ) (c : Bool) :
    (updateStep xs i p c).length = xs.length := by
  induction xs generalizing i with
  | nil => rfl
  | cons st rest ih =>
    cases i with
    | zero => rfl
    | succ i => simp [updateStep, ih]

theorem length_completeUpTo (xs : List ProcessingStep) (i : ℕ) :
    (completeUpTo xs i).length = xs.length := by
  induction xs generalizing i with
  | nil => rfl
  | cons st rest ih =>
    cases i with
    | zero => rfl
    | succ i => simp [completeUpTo, ih]

theorem updateStep_updateStep (xs : List ProcessingStep) (i : ℕ)
    (p p' : ℚ) (c c' : Bool) :
    updateStep (updateStep xs i p c) i p' c' = updateStep xs i p' c' := by
  induction xs generalizing i with
  | nil => rfl
  | cons st rest ih =>
    cases i with
    | zero => rfl
    | succ i => simp [updateStep, ih]

theorem completeUpTo_zero (xs : List ProcessingStep) : completeUpTo xs 0 = xs := by
  cases xs <;> rfl

theorem completeUpTo_succ (xs : List ProcessingStep) (i : ℕ) :
    updateStep (completeUpTo xs i) i 100 true = completeUpTo xs (i + 1) := by
  induction xs generalizing i with
  | nil => rfl
  | cons st rest ih =>
    cases i with
    | zero => simp [completeUpTo, updateStep, completeUpTo_zero]
    | succ i => simp [completeUpTo, updateStep, ih]

theorem get?_updateStep (xs : List ProcessingStep) (i k : ℕ) (p : ℚ) (c : Bool) :
    (updateStep xs i p c).get? k =
      if k = i then (xs.get? k).map (fun st => { st with progress := p, completed := c })
      else xs.get? k := by
  induction xs generalizing i k with
  | nil => simp [updateStep]
  | cons st rest ih =>
    cases i with
    | zero =>
      cases k with
      | zero => simp [updateStep]
      | succ k => simp [updateStep]
    | succ i =>
      cases k with
      | zero => simp [updateStep]
      | succ k => simpa [updateStep] using ih i k

theorem get?_completeUpTo (xs : List ProcessingStep) (i k : ℕ) :
    (completeUpTo xs i).get? k =
      if k < i then (xs.get? k).map (fun st => { st with progress := (100 : ℚ), completed := true })
      else xs.get? k := by
  induction xs generalizing i k with
  | nil => simp [completeUpTo]
  | cons st rest ih =>
    cases i with
    | zero => simp [completeUpTo_zero]
    | succ i =>
      cases k with
      | zero => simp [completeUpTo]
      | succ k =>
        simpa [completeUpTo, Nat.succ_lt_succ_iff] using ih i k

theorem tickEvsFrom_updateStep (steps : List ProcessingStep) (j : ℕ)
    (p : ℚ) (c : Bool) (m : ℕ) :
    tickEvsFrom (updateStep steps j p c) j m = tickEvsFrom steps j m := by
  induction m with
  | zero =>
    simp [tickEvsFrom, updateStep_updateStep, length_updateStep]
  | succ m ih =>
    simp [tickEvsFrom, updateStep_updateStep, length_updateStep, ih]

/-! Running the event loop: composition and quiescence. -/

theorem fireN_succ (n : ℕ) (s : AppState) :
    fireN (n + 1) s
      = ((fireN n (fireHead s).1).1, (fireHead s).2 ++ (fireN n (fireHead s).1).2) := rfl

theorem fireN_one (s : AppState) : fireN 1 s = ((fireHead s).1, (fireHead s).2) := by
  simp [fireN]

theorem fireN_add (a b : ℕ) (s : AppState) :
    fireN (a + b) s =
      ((fireN b (fireN a s).1).1, (fireN a s).2 ++ (fireN b (fireN a s).1).2) := by
  induction a generalizing s with
  | zero => simp [fireN]
  | succ a ih =>
    have h : a + 1 + b = (a + b) + 1 := by omega
    rw [h]
    simp only [fireN, ih (fireHead s).1]
    simp [List.append_assoc]

theorem fireN_no_timers (m : ℕ) (s : AppState) (h : s.timers = []) :
    fireN m s = (s, []) := by
  induction m with
  | zero => rfl
  | succ m ih =>
    have hh : fireHead s = (s, []) := by
      unfold fireHead
      rw [h]
    simp [fireN, hh, ih]

/-- Firing the interval of stage j entered with local stepProgress
98 - 2m runs exactly m + 1 further ticks: m mid-stage snapshots, then
the boundary snapshot, leaving the 500ms timeout for stage j+1 pending. -/
theorem fireN_interval (m : ℕ) (steps : List ProcessingStep) (j : ℕ)
    (c : Route) (ps : List ProcessingStep) (ov : ℚ) (ip : Bool) :
    fireN (m + 1) ⟨c, ps, ov, ip, [Task.interval steps j ((98 : ℚ) - 2 * (m : ℚ))]⟩
      = (⟨c, updateStep steps j 100 true,
            (((j : ℚ) + 1) / (steps.length : ℚ)) * 100, ip,
            [Task.timeout (updateStep steps j 100 true) (j + 1)]⟩,
         tickEvsFrom steps j m) := by
  induction m generalizing steps ps ov with
  | zero =>
    have hcond : (100 : ℚ) ≤ (98 : ℚ) - 2 * ((0 : ℕ) : ℚ) + progressIncrement := by
      norm_num [progressIncrement]
    simp only [fireN, fireHead]
    rw [if_pos hcond]
    simp [tickEvsFrom]
  | succ m ih =>
    have hp : (98 : ℚ) - 2 * ((m + 1 : ℕ) : ℚ) + progressIncrement
        = (98 : ℚ) - 2 * (m : ℚ) := by
      push_cast [progressIncrement]
      ring
    have hcond : ¬ ((100 : ℚ) ≤ (98 : ℚ) - 2 * ((m + 1 : ℕ) : ℚ) + progressIncrement) := by
      rw [hp]
      have : (0 : ℚ) ≤ (m : ℚ) := Nat.cast_nonneg m
      linarith
    have hfh : fireHead ⟨c, ps, ov, ip,
          [Task.interval steps j ((98 : ℚ) - 2 * ((m + 1 : ℕ) : ℚ))]⟩
        = (⟨c, updateStep steps j ((98 : ℚ) - 2 * (m : ℚ)) false,
              ((j : ℚ) / (steps.length : ℚ)) * 100 + ((98 : ℚ) - 2 * (m : ℚ)) / (steps.length : ℚ),
              ip,
              [Task.interval (updateStep steps j ((98 : ℚ) - 2 * (m : ℚ)) false) j
                ((98 : ℚ) - 2 * (m : ℚ))]⟩,
           [Ev.snap j (updateStep steps j ((98 : ℚ) - 2 * (m : ℚ)) false)
              (((j : ℚ) / (steps.length : ℚ)) * 100 + ((98 : ℚ) - 2 * (m : ℚ)) / (steps.length : ℚ))]) := by
      simp only [fireHead]
      rw [if_neg hcond, hp]
      simp
    rw [fireN_succ, hfh]
    simp only
    rw [ih (updateStep steps j ((98 : ℚ) - 2 * (m : ℚ)) false)
        (updateStep steps j ((98 : ℚ) - 2 * (m : ℚ)) false) _]
    simp [tickEvsFrom, updateStep_updateStep, length_updateStep, tickEvsFrom_updateStep]

/-- Running 51(q+1) firings from the start of stage j, with q further
stages after it, drives the run to the quiescent completed state and
emits exactly the closed-form trace. -/
theorem fireN_stages (q : ℕ) : ∀ (j : ℕ) (c : Route) (ps : List ProcessingStep)
    (ov : ℚ) (ip : Bool) (steps0 : List ProcessingStep),
    steps0.length = j + (q + 1) →
    fireN (51 * (q + 1)) ⟨c, ps, ov, ip, [Task.interval (completeUpTo steps0 j) j 0]⟩
      = (⟨Route.preview, completeUpTo steps0 steps0.length, 100, false, []⟩,
         stagesTrace steps0 j (q + 1)) := by
  induction q with
  | zero =>
    intro j c ps ov ip steps0 hlen
    have h0 : (0 : ℚ) = (98 : ℚ) - 2 * ((49 : ℕ) : ℚ) := by norm_num
    have h51 : 51 * (0 + 1) = (49 + 1) + 1 := by norm_num
    rw [h51, fireN_add]
    rw [h0, fireN_interval 49 (completeUpTo steps0 j) j c ps ov ip]
    have htime : (updateStep (completeUpTo steps0 j) j 100 true).length ≤ j + 1 := by
      rw [length_updateStep, length_completeUpTo, hlen]
    have hfh : fireHead ⟨c, updateStep (completeUpTo steps0 j) j 100 true,
          (((j : ℚ) + 1) / ((completeUpTo steps0 j).length : ℚ)) * 100, ip,
          [Task.timeout (updateStep (completeUpTo steps0 j) j 100 true) (j + 1)]⟩
        = (⟨Route.preview, updateStep (completeUpTo steps0 j) j 100 true, 100, false, []⟩,
           [Ev.pause, Ev.complete]) := by
      simp only [fireHead]
      rw [if_pos htime]
    rw [fireN_one, hfh]
    rw [completeUpTo_succ]
    have hn : steps0.length = j + 1 := by omega
    rw [← hn]
    simp [stagesTrace]
  | succ q ih =>
    intro j c ps ov ip steps0 hlen
    have h0 : (0 : ℚ) = (98 : ℚ) - 2 * ((49 : ℕ) : ℚ) := by norm_num
    have h51 : 51 * (q + 1 + 1) = ((49 + 1) + 1) + 51 * (q + 1) := by ring
    rw [h51, fireN_add]
    rw [fireN_add (49 + 1) 1]
    rw [h0, fireN_interval 49 (completeUpTo steps0 j) j c ps ov ip]
    have htime : ¬ ((updateStep (completeUpTo steps0 j) j 100 true).length ≤ j + 1) := by
      rw [length_updateStep, length_completeUpTo, hlen]
      omega
    have hfh : fireHead ⟨c, updateStep (completeUpTo steps0 j) j 100 true,
          (((j : ℚ) + 1) / ((completeUpTo steps0 j).length : ℚ)) * 100, ip,
          [Task.timeout (updateStep (completeUpTo steps0 j) j 100 true) (j + 1)]⟩
        = (⟨c, updateStep (completeUpTo steps0 j) j 100 true,
              (((j : ℚ) + 1) / ((completeUpTo steps0 j).length : ℚ)) * 100, ip,
              [Task.interval (updateStep (completeUpTo steps0 j) j 100 true) (j + 1) 0]⟩,
           [Ev.pause]) := by
      simp only [fireHead]
      rw [if_neg htime]
      simp
    rw [fireN_one, hfh]
    rw [completeUpTo_succ]
    have hlen' : steps0.length = (j + 1) + (q + 1) := by omega
    have H := ih (j + 1) c (completeUpTo steps0 (j + 1))
      ((((j : ℚ) + 1) / ((completeUpTo steps0 j).length : ℚ)) * 100) ip steps0 hlen'
    simp only at H ⊢
    rw [H]
    simp [stagesTrace]

/-- The full-run characterization: starting the engine on a non-empty
step list and letting the event loop run to quiescence yields the
completed state and the closed-form trace. -/
theorem runEngine_eq (steps0 : List ProcessingStep) (h : steps0 ≠ []) :
    fireN (51 * steps0.length) (startProcessing (initState steps0))
      = (⟨Route.preview, completeUpTo steps0 steps0.length, 100, false, []⟩,
         stagesTrace steps0 0 steps0.length) := by
  cases steps0 with
  | nil => exact absurd rfl h
  | cons a l =>
    have hne : ¬ ((a :: l).length = 0) := by simp
    have hstart : startProcessing (initState (a :: l))
        = ⟨Route.processing, a :: l, 0, true, [Task.interval (a :: l) 0 0]⟩ := by
      simp [startProcessing, initState, hne]
    rw [hstart]
    have hlen : (a :: l).length = 0 + (l.length + 1) := by simp
    have H := fireN_stages l.length 0 Route.processing (a :: l) 0 true (a :: l) hlen
    rw [completeUpTo_zero] at H
    simpa using H

theorem runTrace_eq (steps0 : List ProcessingStep) (h : steps0 ≠ []) :
    runTrace steps0 = stagesTrace steps0 0 steps0.length := by
  unfold runTrace
  rw [runEngine_eq steps0 h]

theorem runFinal_eq (steps0 : List ProcessingStep) (h : steps0 ≠ []) :
    runFinal steps0
      = ⟨Route.preview, completeUpTo steps0 steps0.length, 100, false, []⟩ := by
  unfold runFinal
  rw [runEngine_eq steps0 h]

/-! Counting events in the closed-form trace. -/

theorem countP_tickEvsFrom_snap (steps : List ProcessingStep) (j m : ℕ) :
    (tickEvsFrom steps j m).countP isSnap = m := by
  induction m with
  | zero => simp [tickEvsFrom, List.countP_cons, isSnap]
  | succ m ih => simp [tickEvsFrom, List.countP_cons, isSnap, ih]

theorem countP_tickEvsFrom_snapComplete (steps : List ProcessingStep) (j m : ℕ) :
    (tickEvsFrom steps j m).countP isSnapComplete = 1 := by
  induction m with
  | zero => simp [tickEvsFrom, List.countP_cons, isSnapComplete]
  | succ m ih => simp [tickEvsFrom, List.countP_cons, isSnapComplete, ih]

theorem countP_tickEvsFrom_tick (steps : List ProcessingStep) (j m : ℕ) :
    (tickEvsFrom steps j m).countP isTickEv = m + 1 := by
  induction m with
  | zero => simp [tickEvsFrom, List.countP_cons, isTickEv, isSnap, isSnapComplete]
  | succ m ih => simp [tickEvsFrom, List.countP_cons, isTickEv, isSnap, isSnapComplete, ih]

theorem countP_tickEvsFrom_pause (steps : List ProcessingStep) (j m : ℕ) :
    (tickEvsFrom steps j m).countP isPause = 0 := by
  induction m with
  | zero => simp [tickEvsFrom, List.countP_cons, isPause]
  | succ m ih => simp [tickEvsFrom, List.countP_cons, isPause, ih]

theorem countP_tickEvsFrom_complete (steps : List ProcessingStep) (j m : ℕ) :
    (tickEvsFrom steps j m).countP isCompleteEv = 0 := by
  induction m with
  | zero => simp [tickEvsFrom, List.countP_cons, isCompleteEv]
  | succ m ih => simp [tickEvsFrom, List.countP_cons, isCompleteEv, ih]

theorem countP_stagesTrace_complete (steps0 : List ProcessingStep) (q : ℕ) :
    ∀ j, (stagesTrace steps0 j q).countP isCompleteEv = 1 := by
  induction q with
  | zero => intro j; simp [stagesTrace, List.countP_cons, isCompleteEv]
  | succ q ih =>
    intro j
    simp [stagesTrace, List.countP_append, List.countP_cons,
      countP_tickEvsFrom_complete, isCompleteEv, ih]

theorem countP_stagesTrace_snapComplete (steps0 : List ProcessingStep) (q : ℕ) :
    ∀ j, (stagesTrace steps0 j q).countP isSnapComplete = q := by
  induction q with
  | zero => intro j; simp [stagesTrace, List.countP_cons, isSnapComplete]
  | succ q ih =>
    intro j
    simp [stagesTrace, List.countP_append, List.countP_cons,
      countP_tickEvsFrom_snapComplete, isSnapComplete, ih]
    omega

theorem countP_stagesTrace_pause (steps0 : List ProcessingStep) (q : ℕ) :
    ∀ j, (stagesTrace steps0 j q).countP isPause = q := by
  induction q with
  | zero => intro j; simp [stagesTrace, List.countP_cons, isPause]
  | succ q ih =>
    intro j
    simp [stagesTrace, List.countP_append, List.countP_cons,
      countP_tickEvsFrom_pause, isPause, ih]

theorem countP_stagesTrace_tick (steps0 : List ProcessingStep) (q : ℕ) :
    ∀ j, (stagesTrace steps0 j q).countP isTickEv = 50 * q := by
  induction q with
  | zero => intro j; simp [stagesTrace, List.countP_cons, isTickEv, isSnap, isSnapComplete]
  | succ q ih =>
    intro j
    simp [stagesTrace, List.countP_append, List.countP_cons,
      countP_tickEvsFrom_tick, isTickEv, isSnap, isSnapComplete, ih]
    omega

/-! Wall-clock duration of the closed-form trace. -/

theorem elapsedMs_tickEvsFrom (steps : List ProcessingStep) (j m : ℕ) :
    elapsedMs (tickEvsFrom steps j m) = 80 * (m + 1) := by
  induction m with
  | zero => simp [tickEvsFrom, elapsedMs, eventMs]
  | succ m ih =>
    simp [tickEvsFrom, elapsedMs, eventMs] at ih ⊢
    omega

theorem elapsedMs_stagesTrace (steps0 : List ProcessingStep) (q : ℕ) :
    ∀ j, elapsedMs (stagesTrace steps0 j q) = q * (50 * 80 + 500) := by
  induction q with
  | zero => intro j; simp [stagesTrace, elapsedMs, eventMs]
  | succ q ih =>
    intro j
    have h1 := elapsedMs_tickEvsFrom (completeUpTo steps0 j) j 49
    have h2 := ih (j + 1)
    simp [stagesTrace, elapsedMs, eventMs] at h1 h2 ⊢
    omega

/-! Membership inversion for the closed-form trace. -/

theorem mem_tickEvsFrom (steps : List ProcessingStep) (j m : ℕ) (e : Ev)
    (h : e ∈ tickEvsFrom steps j m) :
    e = Ev.snapComplete j (updateStep steps j 100 true)
          ((((j : ℚ) + 1) / (steps.length : ℚ)) * 100)
    ∨ ∃ m' : ℕ, m' < m ∧
        e = Ev.snap j (updateStep steps j ((98 : ℚ) - 2 * (m' : ℚ)) false)
              (((j : ℚ) / (steps.length : ℚ)) * 100 +
                ((98 : ℚ) - 2 * (m' : ℚ)) / (steps.length : ℚ)) := by
  induction m with
  | zero =>
    simp only [tickEvsFrom, List.mem_singleton] at h
    exact Or.inl h
  | succ m ih =>
    simp only [tickEvsFrom, List.mem_cons] at h
    rcases h with h | h
    · exact Or.inr ⟨m, Nat.lt_succ_self m, h⟩
    · rcases ih h with h' | ⟨m', hm', h'⟩
      · exact Or.inl h'
      · exact Or.inr ⟨m', Nat.lt_succ_of_lt hm', h'⟩

theorem mem_stagesTrace (steps0 : List ProcessingStep) (q : ℕ) :
    ∀ j e, steps0.length = j + q → e ∈ stagesTrace steps0 j q →
    e = Ev.pause ∨ e = Ev.complete ∨
      ∃ i : ℕ, j ≤ i ∧ i < steps0.length ∧ e ∈ tickEvsFrom (completeUpTo steps0 i) i 49 := by
  induction q with
  | zero =>
    intro j e _ h
    simp only [stagesTrace, List.mem_singleton] at h
    exact Or.inr (Or.inl h)
  | succ q ih =>
    intro j e hlen h
    simp only [stagesTrace, List.mem_append, List.mem_cons] at h
    rcases h with h | h | h
    · exact Or.inr (Or.inr ⟨j, le_refl j, by omega, h⟩)
    · exact Or.inl h
    · rcases ih (j + 1) e (by omega) h with h' | h' | ⟨i, hi1, hi2, hi3⟩
      · exact Or.inl h'
      · exact Or.inr (Or.inl h')
      · exact Or.inr (Or.inr ⟨i, by omega, hi2, hi3⟩)

/-! Shape and ordering of the closed-form trace. -/

theorem getLast?_cons_of {α : Type} (l : List α) (a b : α)
    (h : l.getLast? = some b) : (a :: l).getLast? = some b := by
  cases l with
  | nil => simp at h
  | cons x xs => rw [List.getLast?_cons_cons]; exact h

theorem tickEvsFrom_getLast (steps : List ProcessingStep) (j : ℕ) :
    ∀ m, (tickEvsFrom steps j m).getLast?
      = some (Ev.snapComplete j (updateStep steps j 100 true)
          ((((j : ℚ) + 1) / (steps.length : ℚ)) * 100)) := by
  intro m
  induction m with
  | zero => simp [tickEvsFrom]
  | succ m ih => exact getLast?_cons_of _ _ _ ih

/-- The relation holding between consecutive trace events in the
amended ordering property: a stage-boundary snapshot is immediately
followed by the 500ms pause, and a pause is immediately followed either
by the first tick of the next stage or by the completion signal. -/
def followRel (a b : Ev) : Prop :=
  (isSnapComplete a = true → b = Ev.pause) ∧
  (a = Ev.pause → isSnap b = true ∨ b = Ev.complete)

theorem followRel_of_snap (i : ℕ) (s : List ProcessingStep) (o : ℚ) (b : Ev) :
    followRel (Ev.snap i s o) b := by
  constructor
  · intro h; simp [isSnapComplete] at h
  · intro h; simp at h

theorem chain'_followRel_tickEvsFrom (steps : List ProcessingStep) (j : ℕ) :
    ∀ m, List.Chain' followRel (tickEvsFrom steps j m) := by
  intro m
  induction m with
  | zero => simp [tickEvsFrom]
  | succ m ih =>
    rw [tickEvsFrom, List.chain'_cons']
    exact ⟨fun y _ => followRel_of_snap _ _ _ y, ih⟩

theorem chain'_followRel_stagesTrace (steps0 : List ProcessingStep) (q : ℕ) :
    ∀ j, List.Chain' followRel (stagesTrace steps0 j q) := by
  induction q with
  | zero => intro j; simp [stagesTrace]
  | succ q ih =>
    intro j
    rw [stagesTrace, List.chain'_append]
    refine ⟨chain'_followRel_tickEvsFrom _ _ _, ?_, ?_⟩
    · rw [List.chain'_cons']
      refine ⟨?_, ih (j + 1)⟩
      intro y hy
      cases q with
      | zero =>
        simp [stagesTrace] at hy
        subst hy
        exact ⟨fun h => by simp [isSnapComplete] at h, fun _ => Or.inr rfl⟩
      | succ q' =>
        simp only [stagesTrace, tickEvsFrom, List.cons_append, List.head?_cons,
          Option.mem_def, Option.some.injEq] at hy
        subst hy
        exact ⟨fun h => by simp [isSnapComplete] at h, fun _ => Or.inl (by simp [isSnap])⟩
    · intro x hx y hy
      rw [Option.mem_def, tickEvsFrom_getLast] at hx
      simp only [List.head?_cons, Option.mem_def, Option.some.injEq] at hy
      subst hy
      cases hx
      exact ⟨fun _ => rfl, fun h => by simp at h⟩

theorem stagesTrace_getLast (steps0 : List ProcessingStep) (q : ℕ) :
    ∀ j, (stagesTrace steps0 j q).getLast? = some Ev.complete := by
  induction q with
  | zero => intro j; simp [stagesTrace]
  | succ q ih =>
    intro j
    rw [stagesTrace, List.getLast?_append_cons]
    exact getLast?_cons_of _ _ _ (ih (j + 1))

/-! The overall-progress sequence of the closed-form trace. -/

theorem snapOveralls_tickEvsFrom_zero (steps : List ProcessingStep) (j : ℕ) :
    snapOveralls (tickEvsFrom steps j 0)
      = [(((j : ℚ) + 1) / (steps.length : ℚ)) * 100] := by
  simp [tickEvsFrom, snapOveralls, ovOf]

theorem snapOveralls_tickEvsFrom_succ (steps : List ProcessingStep) (j m : ℕ) :
    snapOveralls (tickEvsFrom steps j (m + 1))
      = (((j : ℚ) / (steps.length : ℚ)) * 100 + ((98 : ℚ) - 2 * (m : ℚ)) / (steps.length : ℚ))
          :: snapOveralls (tickEvsFrom steps j m) := by
  simp [tickEvsFrom, snapOveralls, ovOf]

theorem snapOveralls_tickEvsFrom_head (steps : List ProcessingStep) (j m : ℕ) :
    (snapOveralls (tickEvsFrom steps j m)).head?
      = some (((j : ℚ) / (steps.length : ℚ)) * 100 +
          ((100 : ℚ) - 2 * (m : ℚ)) / (steps.length : ℚ)) := by
  cases m with
  | zero =>
    rw [snapOveralls_tickEvsFrom_zero]
    simp only [List.head?_cons, Option.some.injEq]
    push_cast
    ring
  | succ m =>
    rw [snapOveralls_tickEvsFrom_succ]
    simp only [List.head?_cons, Option.some.injEq]
    push_cast
    ring

theorem snapOveralls_tickEvsFrom_getLast (steps : List ProcessingStep) (j : ℕ) :
    ∀ m, (snapOveralls (tickEvsFrom steps j m)).getLast?
      = some ((((j : ℚ) + 1) / (steps.length : ℚ)) * 100) := by
  intro m
  induction m with
  | zero => rw [snapOveralls_tickEvsFrom_zero]; simp
  | succ m ih =>
    rw [snapOveralls_tickEvsFrom_succ]
    exact getLast?_cons_of _ _ _ ih

theorem chain'_le_snapOveralls_tickEvsFrom (steps : List ProcessingStep) (j : ℕ)
    (hpos : 0 < steps.length) :
    ∀ m, List.Chain' (· ≤ ·) (snapOveralls (tickEvsFrom steps j m)) := by
  have hn : (0 : ℚ) < (steps.length : ℚ) := by exact_mod_cast hpos
  intro m
  induction m with
  | zero => rw [snapOveralls_tickEvsFrom_zero]; simp
  | succ m ih =>
    rw [snapOveralls_tickEvsFrom_succ, List.chain'_cons']
    refine ⟨?_, ih⟩
    intro y hy
    rw [Option.mem_def, snapOveralls_tickEvsFrom_head] at hy
    cases hy
    have h2 : ((98 : ℚ) - 2 * (m : ℚ)) / (steps.length : ℚ)
        ≤ ((100 : ℚ) - 2 * (m : ℚ)) / (steps.length : ℚ) := by
      apply (div_le_div_right hn).mpr
      linarith
    linarith

theorem snapOveralls_stagesTrace_succ_head (steps0 : List ProcessingStep) (q j : ℕ) :
    (snapOveralls (stagesTrace steps0 j (q + 1))).head?
      = some (((j : ℚ) / (steps0.length : ℚ)) * 100 + 2 / (steps0.length : ℚ)) := by
  rw [stagesTrace]
  rw [show (49 : ℕ) = 48 + 1 from rfl]
  rw [snapOveralls, List.filterMap_append, tickEvsFrom]
  simp only [List.filterMap_cons, ovOf]
  simp only [List.cons_append, List.head?_cons, Option.some.injEq]
  rw [length_completeUpTo]
  norm_num

theorem chain'_le_snapOveralls_stagesTrace (steps0 : List ProcessingStep)
    (hpos : 0 < steps0.length) :
    ∀ q j, List.Chain' (· ≤ ·) (snapOveralls (stagesTrace steps0 j q)) := by
  intro q
  induction q with
  | zero => intro j; simp [stagesTrace, snapOveralls, ovOf]
  | succ q ih =>
    intro j
    rw [stagesTrace, snapOveralls, List.filterMap_append, List.filterMap_cons]
    simp only [ovOf]
    rw [List.chain'_append]
    refine ⟨?_, ih (j + 1), ?_⟩
    · apply chain'_le_snapOveralls_tickEvsFrom
      rw [length_completeUpTo]
      exact hpos
    · intro x hx y hy
      rw [Option.mem_def] at hx
      have hlast := snapOveralls_tickEvsFrom_getLast (completeUpTo steps0 j) j 49
      rw [snapOveralls] at hlast
      rw [hlast] at hx
      cases hx
      cases q with
      | zero =>
        simp [stagesTrace, snapOveralls, ovOf] at hy
      | succ q' =>
        rw [Option.mem_def] at hy
        have hh := snapOveralls_stagesTrace_succ_head steps0 q' (j + 1)
        rw [snapOveralls] at hh
        rw [hh] at hy
        cases hy
        rw [length_completeUpTo]
        have h2 : (0 : ℚ) ≤ 2 / (steps0.length : ℚ) := by positivity
        have heq : (((j : ℚ) + 1) / (steps0.length : ℚ)) * 100
            = (((j + 1 : ℕ) : ℚ) / (steps0.length : ℚ)) * 100 := by push_cast; ring
        rw [heq]
        linarith

/-! Completed flags across the published step lists. -/

theorem completedAt_eq_true_iff (s : List ProcessingStep) (idx : ℕ) :
    completedAt s idx = true ↔ ∃ st, s.get? idx = some st ∧ st.completed = true := by
  unfold completedAt
  cases h : s.get? idx with
  | none => simp
  | some st => simp [h]

theorem completedAt_updateStep_ne (xs : List ProcessingStep) (i idx : ℕ)
    (p : ℚ) (c : Bool) (h : idx ≠ i) :
    completedAt (updateStep xs i p c) idx = completedAt xs idx := by
  unfold completedAt
  rw [get?_updateStep, if_neg h]

theorem completedAt_updateStep_self (xs : List ProcessingStep) (i : ℕ) (p : ℚ) :
    completedAt (updateStep xs i p false) i = false := by
  unfold completedAt
  rw [get?_updateStep, if_pos rfl]
  cases xs.get? i <;> simp

theorem completedAt_completeUpTo_of (xs : List ProcessingStep) (k idx : ℕ)
    (h1 : idx < k) (h2 : idx < xs.length) :
    completedAt (completeUpTo xs k) idx = true := by
  unfold completedAt
  rw [get?_completeUpTo, if_pos h1]
  cases h : xs.get? idx with
  | none => rw [List.get?_eq_none] at h; omega
  | some st => simp

theorem completedAt_completeUpTo_imp (xs : List ProcessingStep) (k idx : ℕ)
    (hv : ValidSteps xs) (h : completedAt (completeUpTo xs k) idx = true) :
    idx < k ∧ idx < xs.length := by
  unfold completedAt at h
  rw [get?_completeUpTo] at h
  by_cases hk : idx < k
  · rw [if_pos hk] at h
    cases hmem : xs.get? idx with
    | none =>
      rw [hmem] at h; simp at h
    | some st =>
      have : idx < xs.length := by
        by_contra hcon
        rw [List.get?_eq_none.mpr (by omega)] at hmem
        exact Option.noConfusion hmem
      exact ⟨hk, this⟩
  · rw [if_neg hk] at h
    cases hmem : xs.get? idx with
    | none => rw [hmem] at h; simp at h
    | some st =>
      rw [hmem] at h
      have hst := (hv st (List.get?_mem hmem)).2
      simp [hst] at h

/-- The published step list of a mid-stage snapshot has exactly the
previously completed stages marked (validity of the initial list is
needed to know later stages start uncompleted). -/
theorem completedAt_mid_imp (steps0 : List ProcessingStep) (i idx : ℕ) (p : ℚ)
    (hv : ValidSteps steps0)
    (h : completedAt (updateStep (completeUpTo steps0 i) i p false) idx = true) :
    idx < i ∧ idx < steps0.length := by
  by_cases hidx : idx = i
  · subst hidx
    rw [completedAt_updateStep_self] at h
    exact absurd h (by simp)
  · rw [completedAt_updateStep_ne _ _ _ _ _ hidx] at h
    exact completedAt_completeUpTo_imp steps0 i idx hv h

theorem completedAt_mid_of (steps0 : List ProcessingStep) (i idx : ℕ) (p : ℚ)
    (h1 : idx < i) (h2 : idx < steps0.length) :
    completedAt (updateStep (completeUpTo steps0 i) i p false) idx = true := by
  rw [completedAt_updateStep_ne _ _ _ _ _ (by omega)]
  exact completedAt_completeUpTo_of steps0 i idx h1 h2

/-! Membership characterization of the published step lists. -/

theorem mem_snapStates_tickEvsFrom (steps : List ProcessingStep) (j m : ℕ)
    (s : List ProcessingStep) (h : s ∈ snapStates (tickEvsFrom steps j m)) :
    s = updateStep steps j 100 true ∨
      ∃ m' : ℕ, m' < m ∧ s = updateStep steps j ((98 : ℚ) - 2 * (m' : ℚ)) false := by
  rw [snapStates, List.mem_filterMap] at h
  obtain ⟨e, he, hs⟩ := h
  rcases mem_tickEvsFrom steps j m e he with h' | ⟨m', hm', h'⟩
  · subst h'
    simp only [stateOf, Option.some.injEq] at hs
    exact Or.inl hs.symm
  · subst h'
    simp only [stateOf, Option.some.injEq] at hs
    exact Or.inr ⟨m', hm', hs.symm⟩

theorem mem_snapStates_stagesTrace (steps0 : List ProcessingStep) (q : ℕ)
    (j : ℕ) (s : List ProcessingStep) (hlen : steps0.length = j + q)
    (h : s ∈ snapStates (stagesTrace steps0 j q)) :
    ∃ i : ℕ, j ≤ i ∧ i < steps0.length ∧
      (s = completeUpTo steps0 (i + 1) ∨
        ∃ m' : ℕ, m' ≤ 48 ∧
          s = updateStep (completeUpTo steps0 i) i ((98 : ℚ) - 2 * (m' : ℚ)) false) := by
  rw [snapStates, List.mem_filterMap] at h
  obtain ⟨e, he, hs⟩ := h
  rcases mem_stagesTrace steps0 q j e hlen he with h' | h' | ⟨i, hi1, hi2, hi3⟩
  · subst h'; simp [stateOf] at hs
  · subst h'; simp [stateOf] at hs
  · rcases mem_tickEvsFrom _ i 49 e hi3 with h' | ⟨m', hm', h'⟩
    · subst h'
      simp only [stateOf, Option.some.injEq] at hs
      refine ⟨i, hi1, hi2, Or.inl ?_⟩
      rw [← hs, completeUpTo_succ]
    · subst h'
      simp only [stateOf, Option.some.injEq] at hs
      exact ⟨i, hi1, hi2, Or.inr ⟨m', by omega, hs.symm⟩⟩

theorem completedAt_lower_stagesTrace (steps0 : List ProcessingStep) (q : ℕ) :
    ∀ j s, steps0.length = j + q → s ∈ snapStates (stagesTrace steps0 j q) →
      ∀ idx, idx < j → idx < steps0.length → completedAt s idx = true := by
  intro j s hlen h idx h1 h2
  obtain ⟨i, hi1, _, hshape⟩ := mem_snapStates_stagesTrace steps0 q j s hlen h
  rcases hshape with h' | ⟨m', _, h'⟩
  · subst h'
    exact completedAt_completeUpTo_of steps0 (i + 1) idx (by omega) h2
  · subst h'
    exact completedAt_mid_of steps0 i idx _ (by omega) h2

/-- The monotonicity relation between two published step lists:
every stage completed in the first is still completed in the second. -/
def CompletedLe (sA sB : List ProcessingStep) : Prop :=
  ∀ idx, completedAt sA idx = true → completedAt sB idx = true

theorem completedAt_upper_tick (steps0 : List ProcessingStep) (i : ℕ)
    (hv : ValidSteps steps0) (s : List ProcessingStep)
    (h : s ∈ snapStates (tickEvsFrom (completeUpTo steps0 i) i 49)) :
    ∀ idx, completedAt s idx = true → idx < i + 1 ∧ idx < steps0.length := by
  intro idx hc
  rcases mem_snapStates_tickEvsFrom _ i 49 s h with h' | ⟨m', _, h'⟩
  · subst h'
    rw [completeUpTo_succ] at hc
    have := completedAt_completeUpTo_imp steps0 (i + 1) idx hv hc
    omega
  · subst h'
    have := completedAt_mid_imp steps0 i idx _ hv hc
    omega

theorem pairwise_completedLe_tickEvsFrom (steps0 : List ProcessingStep) (i : ℕ)
    (hv : ValidSteps steps0) :
    ∀ m, List.Pairwise CompletedLe (snapStates (tickEvsFrom (completeUpTo steps0 i) i m)) := by
  intro m
  induction m with
  | zero =>
    simp [tickEvsFrom, snapStates, stateOf]
  | succ m ih =>
    rw [tickEvsFrom, snapStates, List.filterMap_cons]
    simp only [stateOf]
    rw [List.pairwise_cons]
    refine ⟨?_, ih⟩
    intro s hs idx hc
    have hbound := completedAt_mid_imp steps0 i idx _ hv hc
    rcases mem_snapStates_tickEvsFrom _ i m s hs with h' | ⟨m'', _, h'⟩
    · subst h'
      rw [completeUpTo_succ]
      exact completedAt_completeUpTo_of steps0 (i + 1) idx (by omega) hbound.2
    · subst h'
      exact completedAt_mid_of steps0 i idx _ hbound.1 hbound.2

theorem pairwise_completedLe_stagesTrace (steps0 : List ProcessingStep)
    (hv : ValidSteps steps0) (q : ℕ) :
    ∀ j, steps0.length = j + q →
      List.Pairwise CompletedLe (snapStates (stagesTrace steps0 j q)) := by
  induction q with
  | zero =>
    intro j _
    simp [stagesTrace, snapStates, stateOf]
  | succ q ih =>
    intro j hlen
    rw [stagesTrace, snapStates, List.filterMap_append, List.filterMap_cons]
    simp only [stateOf]
    rw [List.pairwise_append]
    refine ⟨?_, ih (j + 1) (by omega), ?_⟩
    · exact pairwise_completedLe_tickEvsFrom steps0 j hv 49
    · intro a ha b hb idx hc
      have hbound := completedAt_upper_tick steps0 j hv a ha idx hc
      exact completedAt_lower_stagesTrace steps0 q (j + 1) b (by omega) hb idx
        (by omega) hbound.2

/-! The completed flag agrees with the 100% mark in every published list. -/

theorem stepIff_completeUpTo (steps0 : List ProcessingStep) (k : ℕ)
    (hv : ValidSteps steps0) :
    ∀ idx st, (completeUpTo steps0 k).get? idx = some st →
      (st.completed = true ↔ st.progress = 100) := by
  intro idx st h
  rw [get?_completeUpTo] at h
  by_cases hk : idx < k
  · rw [if_pos hk] at h
    cases hm : steps0.get? idx with
    | none => rw [hm] at h; simp at h
    | some st0 =>
      rw [hm] at h
      simp only [Option.map_some', Option.some.injEq] at h
      subst h
      simp
  · rw [if_neg hk] at h
    have hst := hv st (List.get?_mem h)
    rw [hst.1, hst.2]
    norm_num

theorem stepIff_mid (steps0 : List ProcessingStep) (i m' : ℕ)
    (hv : ValidSteps steps0) :
    ∀ idx st,
      (updateStep (completeUpTo steps0 i) i ((98 : ℚ) - 2 * (m' : ℚ)) false).get? idx = some st →
      (st.completed = true ↔ st.progress = 100) := by
  intro idx st h
  rw [get?_updateStep] at h
  by_cases hk : idx = i
  · rw [if_pos hk] at h
    cases hm : (completeUpTo steps0 i).get? idx with
    | none => rw [hm] at h; simp at h
    | some st0 =>
      rw [hm] at h
      simp only [Option.map_some', Option.some.injEq] at h
      subst h
      have hne : (98 : ℚ) - 2 * (m' : ℚ) ≠ 100 := by
        have h0 : (0 : ℚ) ≤ (m' : ℚ) := Nat.cast_nonneg m'
        intro heq
        linarith
      simp [hne]
  · rw [if_neg hk] at h
    exact stepIff_completeUpTo steps0 i hv idx st h

theorem snapStates_iff_stagesTrace (steps0 : List ProcessingStep) (q j : ℕ)
    (hv : ValidSteps steps0) (hlen : steps0.length = j + q) :
    ∀ s ∈ snapStates (stagesTrace steps0 j q), ∀ idx st, s.get? idx = some st →
      (st.completed = true ↔ st.progress = 100) := by
  intro s hs idx st h
  obtain ⟨i, _, _, hshape⟩ := mem_snapStates_stagesTrace steps0 q j s hlen hs
  rcases hshape with h' | ⟨m', _, h'⟩
  · subst h'
    exact stepIff_completeUpTo steps0 (i + 1) hv idx st h
  · subst h'
    exact stepIff_mid steps0 i m' hv idx st h

/-! Overall progress 100 is published only with every stage completed. -/

theorem completeUpTo_all_completed (xs : List ProcessingStep) :
    ∀ k, xs.length ≤ k → ∀ st ∈ completeUpTo xs k, st.completed = true := by
  induction xs with
  | nil => intro k _ st h; simp [completeUpTo] at h
  | cons a rest ih =>
    intro k hk st h
    cases k with
    | zero => simp at hk
    | succ k =>
      simp only [completeUpTo, List.mem_cons] at h
      rcases h with h | h
      · subst h; rfl
      · exact ih k (by simpa using hk) st h

theorem ov100_stagesTrace (steps0 : List ProcessingStep) (q : ℕ) :
    ∀ j, steps0.length = j + q → ∀ e ∈ stagesTrace steps0 j q, ∀ i s o,
      (e = Ev.snap i s o ∨ e = Ev.snapComplete i s o) → o = 100 →
      ∀ st ∈ s, st.completed = true := by
  intro j hlen e he i s o hshape ho st hst
  rcases mem_stagesTrace steps0 q j e hlen he with h' | h' | ⟨i', _, hi2, hi3⟩
  · subst h'; rcases hshape with h | h <;> exact Ev.noConfusion h
  · subst h'; rcases hshape with h | h <;> exact Ev.noConfusion h
  · have hn : (0 : ℚ) < (steps0.length : ℚ) := by
      have h0 : 0 < steps0.length := by omega
      exact_mod_cast h0
    have hn' : (steps0.length : ℚ) ≠ 0 := ne_of_gt hn
    have hlen' : (completeUpTo steps0 i').length = steps0.length := length_completeUpTo _ _
    rcases mem_tickEvsFrom _ i' 49 e hi3 with h' | ⟨m', _, h'⟩
    · subst h'
      rcases hshape with h | h
      · exact Ev.noConfusion h
      · injection h with h1 h2 h3
        subst h1
        subst h2
        subst h3
        rw [hlen'] at ho
        have hio : ((i' : ℚ) + 1) = (steps0.length : ℚ) := by
          field_simp at ho
          linarith
        have hieq : i' + 1 = steps0.length := by exact_mod_cast hio
        rw [completeUpTo_succ, hieq] at hst
        exact completeUpTo_all_completed steps0 steps0.length (le_refl _) st hst
    · subst h'
      rcases hshape with h | h
      · injection h with h1 h2 h3
        subst h1
        subst h2
        subst h3
        rw [hlen'] at ho
        have hi1q : (i' : ℚ) + 1 ≤ (steps0.length : ℚ) := by exact_mod_cast hi2
        have hm0 : (0 : ℚ) ≤ (m' : ℚ) := Nat.cast_nonneg m'
        field_simp at ho
        linarith
      · exact Ev.noConfusion h

/-! Every stage-boundary snapshot occurs in the run trace. -/

theorem snapComplete_mem_tickEvsFrom (steps : List ProcessingStep) (j : ℕ) :
    ∀ m, Ev.snapComplete j (updateStep steps j 100 true)
      ((((j : ℚ) + 1) / (steps.length : ℚ)) * 100) ∈ tickEvsFrom steps j m := by
  intro m
  induction m with
  | zero => simp [tickEvsFrom]
  | succ m ih => simp only [tickEvsFrom, List.mem_cons]; exact Or.inr ih

theorem snapComplete_mem_stagesTrace (steps0 : List ProcessingStep) (q : ℕ) :
    ∀ j i, j ≤ i → i < j + q →
      Ev.snapComplete i (updateStep (completeUpTo steps0 i) i 100 true)
        ((((i : ℚ) + 1) / ((completeUpTo steps0 i).length : ℚ)) * 100)
        ∈ stagesTrace steps0 j q := by
  induction q with
  | zero => intro j i h1 h2; omega
  | succ q ih =>
    intro j i h1 h2
    rw [stagesTrace, List.mem_append]
    by_cases hij : i = j
    · subst hij
      exact Or.inl (snapComplete_mem_tickEvsFrom _ i 49)
    · refine Or.inr (List.mem_cons_of_mem _ ?_)
      exact ih (j + 1) i (by omega) (by omega)

/-! The synchronized dual-view playback controller (App.tsx lines 44-63,
391-411).  A video element is modelled by its playing flag; play() sets
it and pause() clears it. -/

/-- One HTML video surface, reduced to its playing state. -/
structure VideoEl where
  playing : Bool
deriving DecidableEq, Repr

/-- The playback controller state: the shared isPlaying React state and
the two refs, absent until the corresponding video element mounts. -/
structure PlaybackState where
  isPlaying : Bool
  leftVideo : Option VideoEl
  rightVideo : Option VideoEl
deriving DecidableEq, Repr

/-- togglePlayback (App.tsx lines 44-59): if both refs are attached,
pause both and clear isPlaying when playing, else play both and set
isPlaying; when either ref is null nothing happens at all. -/
def togglePlayback (s : PlaybackState) : PlaybackState :=
  match s.leftVideo, s.rightVideo with
  | some l, some r =>
    if s.isPlaying then
      { s with leftVideo := some { l with playing := false },
               rightVideo := some { r with playing := false },
               isPlaying := false }
    else
      { s with leftVideo := some { l with playing := true },
               rightVideo := some { r with playing := true },
               isPlaying := true }
  | _, _ => s

/-- handleVideoEnd (App.tsx lines 61-63): set the shared isPlaying to
false; it takes no argument and ignores which element fired. -/
def handleVideoEnd (s : PlaybackState) : PlaybackState :=
  { s with isPlaying := false }

/-- Which of the two video surfaces fired the ended event. -/
inductive Side where
  | left
  | right
deriving DecidableEq, Repr

/-- Both video elements attach the same handler to onEnded
(App.tsx lines 395 and 409), so the fired side is discarded. -/
def videoEnded (_side : Side) (s : PlaybackState) : PlaybackState :=
  handleVideoEnd s

/-! The derived download file name (App.tsx lines 165-174). -/

/-- JavaScript String.prototype.split with the one-character separator
period, on a list of characters: splits at every period, keeping empty
segments, as in name.split((String.fromCharCode 46)) at App.tsx line 169. -/
def jsSplitDot : List Char → List (List Char)
  | [] => [[]]
  | c :: cs =>
    if c = '.' then [] :: jsSplitDot cs
    else
      match jsSplitDot cs with
      | [] => [[c]]
      | seg :: rest => (c :: seg) :: rest

/-- The file name fabricated by downloadVideo (App.tsx line 169):
the first segment of the split plus the fixed suffix. -/
def downloadFileName (name : List Char) : List Char :=
  (jsSplitDot name).headI ++ "_VR180.mp4".toList

theorem jsSplitDot_ne_nil (cs : List Char) : jsSplitDot cs ≠ [] := by
  cases cs with
  | nil => simp [jsSplitDot]
  | cons c cs =>
    rw [jsSplitDot]
    by_cases h : c = '.'
    · rw [if_pos h]; simp
    · rw [if_neg h]
      cases jsSplitDot cs <;> simp

theorem jsSplitDot_headI (cs : List Char) :
    (jsSplitDot cs).headI = cs.takeWhile (fun c => c != '.') := by
  induction cs with
  | nil => simp [jsSplitDot]
  | cons c cs ih =>
    rw [jsSplitDot]
    by_cases h : c = '.'
    · rw [if_pos h, h]
      simp [List.takeWhile]
    · rw [if_neg h]
      have hne := jsSplitDot_ne_nil cs
      cases hsplit : jsSplitDot cs with
      | nil => exact absurd hsplit hne
      | cons seg rest =>
        rw [hsplit] at ih
        simp only [List.headI] at ih ⊢
        rw [List.takeWhile_cons]
        have hb : (c != '.') = true := by simp [h]
        rw [hb]
        simp only [if_true]
        rw [ih]

/-! Small helper facts for concrete instances. -/

theorem defaultSteps_ne_nil : defaultSteps ≠ [] := by decide

theorem defaultSteps_length : defaultSteps.length = 4 := rfl

theorem validSteps_defaultSteps : ValidSteps defaultSteps := by
  intro st hst
  fin_cases hst <;> exact ⟨rfl, rfl⟩

theorem fireHead_interval_mid (c : Route) (ps : List ProcessingStep) (ov : ℚ)
    (ip : Bool) (steps : List ProcessingStep) (j : ℕ) (p : ℚ) (rest : List Task)
    (h : ¬ ((100 : ℚ) ≤ p + progressIncrement)) :
    fireHead ⟨c, ps, ov, ip, Task.interval steps j p :: rest⟩
      = (⟨c, updateStep steps j (p + progressIncrement) false,
            ((j : ℚ) / (steps.length : ℚ)) * 100 + (p + progressIncrement) / (steps.length : ℚ),
            ip,
            rest ++ [Task.interval (updateStep steps j (p + progressIncrement) false) j
              (p + progressIncrement)]⟩,
         [Ev.snap j (updateStep steps j (p + progressIncrement) false)
            (((j : ℚ) / (steps.length : ℚ)) * 100 + (p + progressIncrement) / (steps.length : ℚ))]) := by
  simp only [fireHead]
  rw [if_neg h]

theorem startProcessing_default :
    startProcessing (initState defaultSteps)
      = ⟨Route.processing, defaultSteps, 0, true, [Task.interval defaultSteps 0 0]⟩ := by
  rw [startProcessing]
  rw [if_neg (by decide : ¬ ((initState defaultSteps).processingSteps.length = 0))]
  simp [initState]

theorem first_tick_cond : ¬ ((100 : ℚ) ≤ 0 + progressIncrement) := by
  norm_num [progressIncrement]

theorem second_tick_cond : ¬ ((100 : ℚ) ≤ (0 + progressIncrement) + progressIncrement) := by
  norm_num [progressIncrement]

/-! The claims. -/

/-- C1: the claim says resetProcess returns the run to the Idle snapshot
and synchronously stops all pending ticks and pauses so that no further
progress snapshots are emitted.  The first half holds, but resetProcess
never clears the interval registered by startProcessing (its handle is
local to processStep), so after calling reset one tick into a run the
interval is still pending, and firing it emits a further snapshot that
drives overallProgress back up to 1.  This theorem evaluates the code at
that failing input. -/
theorem claim1_reset_leaves_pending_timer :
    (resetProcess (fireN 1 (startProcessing (initState defaultSteps))).1).overallProgress = 0
    ∧ (∀ st ∈ (resetProcess (fireN 1 (startProcessing (initState defaultSteps))).1).processingSteps,
        st.progress = 0 ∧ st.completed = false)
    ∧ (resetProcess (fireN 1 (startProcessing (initState defaultSteps))).1).currentStep = Route.upload
    ∧ (resetProcess (fireN 1 (startProcessing (initState defaultSteps))).1).timers ≠ []
    ∧ (fireN 1 (resetProcess (fireN 1 (startProcessing (initState defaultSteps))).1)).2 ≠ []
    ∧ (fireN 1 (resetProcess (fireN 1 (startProcessing (initState defaultSteps))).1)).1.overallProgress = 1 := by
  rw [startProcessing_default]
  rw [fireN_one, fireHead_interval_mid _ _ _ _ _ _ _ _ first_tick_cond]
  simp only
  rw [resetProcess]
  simp only [List.nil_append]
  rw [fireN_one, fireHead_interval_mid _ _ _ _ _ _ _ _ second_tick_cond]
  simp only [List.nil_append]
  refine ⟨trivial, ?_, trivial, by simp, by simp, ?_⟩
  · intro st hst
    rw [List.mem_map] at hst
    obtain ⟨a, _, rfl⟩ := hst
    exact ⟨rfl, rfl⟩
  · rw [length_updateStep, defaultSteps_length]
    norm_num [progressIncrement]

/-- C3: the claim says start on an empty sequence or while already
running is rejected defensively.  The code has no such guard: with an
empty list it immediately publishes overallProgress 100 and transitions
to the preview route (it proceeds with zero stages), and a second
startProcessing during a run registers a second interval, leaving two
overlapping tick loops pending.  This theorem evaluates the code at both
failing inputs. -/
theorem claim3_start_unguarded :
    (startProcessing (initState [])).currentStep = Route.preview
    ∧ (startProcessing (initState [])).overallProgress = 100
    ∧ (startProcessing (initState [])).isProcessing = false
    ∧ (startProcessing (startProcessing (initState defaultSteps))).timers.length = 2 := by
  have h1 : startProcessing (initState ([] : List ProcessingStep))
      = ⟨Route.preview, [], 100, false, []⟩ := by
    rw [startProcessing]
    simp [initState]
  have h2 : startProcessing ⟨Route.processing, defaultSteps, 0, true,
        [Task.interval defaultSteps 0 0]⟩
      = ⟨Route.processing, defaultSteps, 0, true,
          [Task.interval defaultSteps 0 0, Task.interval defaultSteps 0 0]⟩ := by
    rw [startProcessing]
    rw [if_neg (by decide : ¬ ((⟨Route.processing, defaultSteps, 0, true,
      [Task.interval defaultSteps 0 0]⟩ : AppState).processingSteps.length = 0))]
    rfl
  rw [startProcessing_default, h1, h2]
  exact ⟨rfl, rfl, rfl, rfl⟩

/-- C2 counterexample: the claim says the default 4-stage run completes
after exactly 200 ticks plus 3 inter-stage pauses, with no pause after
the last stage.  In the code a 500ms setTimeout follows every stage
completion including the last (the completion signal fires from that
final timeout), so the default run contains 4 pauses and its wall-clock
total is 200 ticks plus 4 pauses. -/
theorem claim2_counterexample :
    (runTrace defaultSteps).countP isPause = 4
    ∧ elapsedMs (runTrace defaultSteps) = 200 * 80 + 4 * 500 := by
  rw [runTrace_eq defaultSteps defaultSteps_ne_nil]
  constructor
  · rw [countP_stagesTrace_pause defaultSteps defaultSteps.length 0, defaultSteps_length]
  · rw [elapsedMs_stagesTrace defaultSteps defaultSteps.length 0, defaultSteps_length]

/-- C2 amended: starting a run with N stages emits the completion signal
exactly once, as the last event, after exactly N stage-completion
snapshots and 50N ticks; every stage completion, including the last, is
immediately followed by the fixed 500ms pause, and a pause is followed
by the next stage's first tick or by the completion signal; the run
lasts N*(50*80) + N*500 milliseconds, and no event of any kind is
emitted after the run completes. -/
theorem claim2_amended (steps0 : List ProcessingStep) (h : steps0 ≠ []) :
    (runTrace steps0).countP isCompleteEv = 1
    ∧ (runTrace steps0).getLast? = some Ev.complete
    ∧ (runTrace steps0).countP isSnapComplete = steps0.length
    ∧ (runTrace steps0).countP isTickEv = 50 * steps0.length
    ∧ (runTrace steps0).countP isPause = steps0.length
    ∧ List.Chain' followRel (runTrace steps0)
    ∧ elapsedMs (runTrace steps0) = steps0.length * (50 * 80) + steps0.length * 500
    ∧ ∀ m, (fireN m (runFinal steps0)).2 = [] := by
  rw [runTrace_eq steps0 h, runFinal_eq steps0 h]
  refine ⟨countP_stagesTrace_complete steps0 _ 0,
    stagesTrace_getLast steps0 _ 0,
    countP_stagesTrace_snapComplete steps0 _ 0,
    countP_stagesTrace_tick steps0 _ 0,
    countP_stagesTrace_pause steps0 _ 0,
    chain'_followRel_stagesTrace steps0 _ 0, ?_, ?_⟩
  · rw [elapsedMs_stagesTrace steps0 _ 0]
    ring
  · intro m
    exact congrArg Prod.snd (fireN_no_timers m
      ⟨Route.preview, completeUpTo steps0 steps0.length, 100, false, []⟩ rfl)

theorem claim2_amended_witness :
    (runTrace defaultSteps).countP isCompleteEv = 1
    ∧ (runTrace defaultSteps).countP isSnapComplete = 4
    ∧ (runTrace defaultSteps).countP isTickEv = 200
    ∧ (runTrace defaultSteps).countP isPause = 4
    ∧ elapsedMs (runTrace defaultSteps) = 18000 := by
  obtain ⟨a, _, b, c, d, _, e, _⟩ := claim2_amended defaultSteps defaultSteps_ne_nil
  rw [defaultSteps_length] at b c d e
  exact ⟨a, b, c, d, by rw [e]⟩

/-- C4: in every run, a stage-boundary snapshot for stage i publishes
exactly the overall progress 100*(i+1)/N and a step list in which stage
i is marked progress 100 and completed. -/
theorem claim4_boundary_values (steps0 : List ProcessingStep) (h : steps0 ≠ [])
    (i : ℕ) (s : List ProcessingStep) (o : ℚ)
    (hmem : Ev.snapComplete i s o ∈ runTrace steps0) :
    o = 100 * ((i : ℚ) + 1) / (steps0.length : ℚ)
    ∧ (s.map ProcessingStep.progress).get? i = some 100
    ∧ (s.map ProcessingStep.completed).get? i = some true := by
  rw [runTrace_eq steps0 h] at hmem
  rcases mem_stagesTrace steps0 steps0.length 0 _ (by omega) hmem
    with h' | h' | ⟨i', _, hi2, hi3⟩
  · exact Ev.noConfusion h'
  · exact Ev.noConfusion h'
  · rcases mem_tickEvsFrom _ i' 49 _ hi3 with h' | ⟨m', _, h'⟩
    · injection h' with h1 h2 h3
      subst h1
      subst h2
      subst h3
      have hlen' : (completeUpTo steps0 i).length = steps0.length := length_completeUpTo _ _
      refine ⟨?_, ?_, ?_⟩
      · rw [hlen']
        ring
      · rw [completeUpTo_succ, List.get?_map, get?_completeUpTo,
          if_pos (Nat.lt_succ_self i)]
        cases hm : steps0.get? i with
        | none => rw [List.get?_eq_none] at hm; omega
        | some st0 => simp
      · rw [completeUpTo_succ, List.get?_map, get?_completeUpTo,
          if_pos (Nat.lt_succ_self i)]
        cases hm : steps0.get? i with
        | none => rw [List.get?_eq_none] at hm; omega
        | some st0 => simp
    · exact Ev.noConfusion h'

theorem claim4_boundary_values_witness :
    ((((0 : ℚ) + 1) / ((completeUpTo defaultSteps 0).length : ℚ)) * 100
        = 100 * ((0 : ℚ) + 1) / (defaultSteps.length : ℚ))
    ∧ ((updateStep (completeUpTo defaultSteps 0) 0 100 true).map
        ProcessingStep.progress).get? 0 = some 100
    ∧ ((updateStep (completeUpTo defaultSteps 0) 0 100 true).map
        ProcessingStep.completed).get? 0 = some true := by
  have hmem : Ev.snapComplete 0 (updateStep (completeUpTo defaultSteps 0) 0 100 true)
      ((((0 : ℚ) + 1) / ((completeUpTo defaultSteps 0).length : ℚ)) * 100)
      ∈ runTrace defaultSteps := by
    rw [runTrace_eq defaultSteps defaultSteps_ne_nil]
    exact snapComplete_mem_stagesTrace defaultSteps defaultSteps.length 0 0
      (le_refl 0) (by decide)
  exact claim4_boundary_values defaultSteps defaultSteps_ne_nil 0 _ _ hmem

/-- C5: over the snapshots emitted during one run of a valid stage
sequence, the published overallProgress is non-decreasing, and a
snapshot publishes overallProgress 100 only with every stage completed. -/
theorem claim5_monotone_overall (steps0 : List ProcessingStep)
    (h : steps0 ≠ []) (_hv : ValidSteps steps0) :
    List.Chain' (· ≤ ·) (snapOveralls (runTrace steps0))
    ∧ ∀ e ∈ runTrace steps0, ∀ i s o,
        (e = Ev.snap i s o ∨ e = Ev.snapComplete i s o) → o = 100 →
        ∀ st ∈ s, st.completed = true := by
  rw [runTrace_eq steps0 h]
  constructor
  · exact chain'_le_snapOveralls_stagesTrace steps0 (List.length_pos.mpr h) _ 0
  · exact ov100_stagesTrace steps0 steps0.length 0 (by omega)

theorem claim5_monotone_overall_witness :
    List.Chain' (· ≤ ·) (snapOveralls (runTrace defaultSteps)) :=
  (claim5_monotone_overall defaultSteps defaultSteps_ne_nil validSteps_defaultSteps).1

/-- C6: in every published snapshot of a run of a valid stage sequence,
a stage's completed flag is true exactly when its progress equals 100,
and along the published snapshots a completed flag never reverts from
true to false. -/
theorem claim6_completed_iff (steps0 : List ProcessingStep)
    (h : steps0 ≠ []) (hv : ValidSteps steps0) :
    (∀ s ∈ snapStates (runTrace steps0), ∀ idx st, s.get? idx = some st →
        (st.completed = true ↔ st.progress = 100))
    ∧ List.Pairwise CompletedLe (snapStates (runTrace steps0)) := by
  rw [runTrace_eq steps0 h]
  exact ⟨snapStates_iff_stagesTrace steps0 steps0.length 0 hv (by omega),
    pairwise_completedLe_stagesTrace steps0 hv steps0.length 0 (by omega)⟩

theorem claim6_completed_iff_witness :
    List.Pairwise CompletedLe (snapStates (runTrace defaultSteps)) :=
  (claim6_completed_iff defaultSteps defaultSteps_ne_nil validSteps_defaultSteps).2

/-- C7: with both view handles attached, a toggle leaves the left view,
the right view and the controller agreeing on the playing state (both
views are driven by the one command), and two consecutive toggles
return isPlaying to its original value. -/
theorem claim7_toggle_sync (s : PlaybackState) (l r : VideoEl)
    (hl : s.leftVideo = some l) (hr : s.rightVideo = some r) :
    ((togglePlayback s).leftVideo.map VideoEl.playing = some (togglePlayback s).isPlaying
      ∧ (togglePlayback s).rightVideo.map VideoEl.playing = some (togglePlayback s).isPlaying
      ∧ (togglePlayback s).isPlaying = !s.isPlaying)
    ∧ (togglePlayback (togglePlayback s)).isPlaying = s.isPlaying := by
  rcases s with ⟨ip, lv, rv⟩
  simp only at hl hr
  subst hl
  subst hr
  cases ip <;> simp [togglePlayback]

theorem claim7_toggle_sync_witness :
    ((togglePlayback ⟨false, some ⟨false⟩, some ⟨false⟩⟩).leftVideo.map VideoEl.playing
        = some (togglePlayback ⟨false, some ⟨false⟩, some ⟨false⟩⟩).isPlaying
      ∧ (togglePlayback ⟨false, some ⟨false⟩, some ⟨false⟩⟩).rightVideo.map VideoEl.playing
        = some (togglePlayback ⟨false, some ⟨false⟩, some ⟨false⟩⟩).isPlaying
      ∧ (togglePlayback ⟨false, some ⟨false⟩, some ⟨false⟩⟩).isPlaying = !false)
    ∧ (togglePlayback (togglePlayback ⟨false, some ⟨false⟩, some ⟨false⟩⟩)).isPlaying = false :=
  claim7_toggle_sync ⟨false, some ⟨false⟩, some ⟨false⟩⟩ ⟨false⟩ ⟨false⟩ rfl rfl

/-- C8: a toggle before both view handles are attached is a complete
no-op guarded by the presence check: the state, including isPlaying and
both refs, is unchanged, and no play or pause command reaches a view. -/
theorem claim8_toggle_noop (s : PlaybackState)
    (h : s.leftVideo = none ∨ s.rightVideo = none) :
    togglePlayback s = s := by
  rcases s with ⟨ip, lv, rv⟩
  simp only at h
  rcases h with h | h
  · subst h
    simp [togglePlayback]
  · subst h
    cases lv <;> simp [togglePlayback]

theorem claim8_toggle_noop_witness :
    togglePlayback ⟨true, none, some ⟨true⟩⟩ = ⟨true, none, some ⟨true⟩⟩ :=
  claim8_toggle_noop ⟨true, none, some ⟨true⟩⟩ (Or.inl rfl)

/-- C9: an ended event from either view sets the shared isPlaying flag
to false, regardless of which view reported it (both elements attach
the same handler, which ignores its source). -/
theorem claim9_onended_stops (side : Side) (s : PlaybackState) :
    (videoEnded side s).isPlaying = false := rfl

/-- C10: the derived output file name is the original asset name taken
up to its first period, with the fixed suffix appended. -/
theorem claim10_download_name (name : List Char) :
    downloadFileName name
      = name.takeWhile (fun c => c != '.') ++ "_VR180.mp4".toList := by
  rw [downloadFileName, jsSplitDot_headI]

end VR180
